import Mathlib

/-!
Shallow embedding of the Walker-Vose alias table library (src/lib.rs).

The Rust code is generic over a float type `F : Float`.  We embed the
arithmetic-relevant parts twice through a single generic development:

* at `ℚ`, which models the "exact arithmetic" reading of the construction
  (all inputs that are finite, non-negative and of positive total weight
  stay inside the finite numbers, where IEEE arithmetic is ordinary field
  arithmetic up to rounding and `ℚ` is the exact-arithmetic semantics);
* at `EFloat`, a model of IEEE floating point extended with `NaN` and the
  infinities (finite values are kept exact as rationals; the special-value
  rules for `+`, `*`, `/`, `<` follow IEEE-754, with the convention that
  every zero is `+0`, which is the only zero that arises in the scenarios
  studied here).

`AliasEntry`, `vosePairLoop` (the `while` loop of `from_iter`),
`fromIterAux` (the table computation of `from_iter`), `from_iter` (the
table computation followed by the two `Range::new` calls of the struct
literal) and `pick` are translated directly from the source.
-/

/-- The `AliasEntry` enum of the source (the Rust field `alias` is a Lean
keyword, so it is called `aliasIdx` here). -/
inductive AliasEntry (F : Type) where
  | Aliased (threshold : F) (value : Nat) (aliasIdx : Nat)
  | Unaliased (idx : Nat)
deriving DecidableEq

/-- `Vec::pop`: remove and return the last element. -/
def popBack {α : Type _} (l : List α) : Option (α × List α) :=
  match l.reverse with
  | [] => none
  | x :: rest => some (x, rest.reverse)

theorem popBack_append_singleton {α : Type _} (xs : List α) (x : α) :
    popBack (xs ++ [x]) = some (x, xs) := by
  simp [popBack]

theorem popBack_nil {α : Type _} : popBack ([] : List α) = none := by
  simp [popBack]

theorem popBack_some_eq {α : Type _} {l l' : List α} {x : α}
    (h : popBack l = some (x, l')) : l = l' ++ [x] := by
  unfold popBack at h
  cases hr : l.reverse with
  | nil => simp [hr] at h
  | cons y ys =>
    rw [hr] at h
    simp only [Option.some.injEq, Prod.mk.injEq] at h
    obtain ⟨h1, h2⟩ := h
    subst h1
    subst h2
    have : l = (y :: ys).reverse := by rw [← hr, List.reverse_reverse]
    simpa using this

theorem popBack_some_length {α : Type _} {l l' : List α} {x : α}
    (h : popBack l = some (x, l')) : l'.length + 1 = l.length := by
  rw [popBack_some_eq h]
  simp

section Generic

variable {F : Type} [Add F] [Sub F] [One F] [LT F]
variable [DecidableRel ((· < ·) : F → F → Prop)]

/-- The `while !(small.is_empty() || large.is_empty())` loop of `from_iter`
(lines 105-123): pop the last entry of each stack, emit an `Aliased` entry,
and push the leftover `(g, (p_g + p_l) - 1)` back onto `small` or `large`
according to whether it is `< 1`.  Returns the final `small`, `large` and
the accumulated table. -/
def vosePairLoop (small large : List (Nat × F)) (table : List (AliasEntry F)) :
    List (Nat × F) × List (Nat × F) × List (AliasEntry F) :=
  match hs : popBack small, hl : popBack large with
  | some ((l, pl), small'), some ((g, pg), large') =>
      let pg' := (pg + pl) - 1
      if pg' < 1 then
        vosePairLoop (small' ++ [(g, pg')]) large' (table ++ [.Aliased pl l g])
      else
        vosePairLoop small' (large' ++ [(g, pg')]) (table ++ [.Aliased pl l g])
  | _, _ => (small, large, table)
termination_by small.length + large.length
decreasing_by
  · have h1 := popBack_some_length hs
    have h2 := popBack_some_length hl
    simp
    omega
  · have h1 := popBack_some_length hs
    have h2 := popBack_some_length hl
    simp
    omega

/-- Number of iterations performed by the pairing loop. -/
def vosePairCount (small large : List (Nat × F)) : Nat :=
  match hs : popBack small, hl : popBack large with
  | some ((_, pl), small'), some ((g, pg), large') =>
      let pg' := (pg + pl) - 1
      (if pg' < 1 then
        vosePairCount (small' ++ [(g, pg')]) large'
      else
        vosePairCount small' (large' ++ [(g, pg')])) + 1
  | _, _ => 0
termination_by small.length + large.length
decreasing_by
  · have h1 := popBack_some_length hs
    have h2 := popBack_some_length hl
    simp
    omega
  · have h1 := popBack_some_length hs
    have h2 := popBack_some_length hl
    simp
    omega

theorem vosePairLoop_step (s₀ l₀ : List (Nat × F)) (l g : Nat) (pl pg : F)
    (table : List (AliasEntry F)) :
    vosePairLoop (s₀ ++ [(l, pl)]) (l₀ ++ [(g, pg)]) table =
      if (pg + pl) - 1 < 1 then
        vosePairLoop (s₀ ++ [(g, (pg + pl) - 1)]) l₀ (table ++ [.Aliased pl l g])
      else
        vosePairLoop s₀ (l₀ ++ [(g, (pg + pl) - 1)]) (table ++ [.Aliased pl l g]) := by
  rw [vosePairLoop.eq_def]
  split
  · rename_i l1 pl1 s1 g1 pg1 lg1 hs hl
    rw [popBack_append_singleton] at hs hl
    injection hs with hs1
    injection hl with hl1
    injection hs1 with ha hb
    injection hl1 with hc hd
    injection ha with ha1 ha2
    injection hc with hc1 hc2
    subst ha1; subst ha2; subst hb; subst hc1; subst hc2; subst hd
    rfl
  · rename_i hnone
    exact absurd (hnone l pl s₀ g pg l₀ (popBack_append_singleton _ _)
      (popBack_append_singleton _ _)) (fun h => h)

theorem vosePairLoop_small_nil (large : List (Nat × F)) (table : List (AliasEntry F)) :
    vosePairLoop [] large table = ([], large, table) := by
  rw [vosePairLoop.eq_def]
  split
  · rename_i l1 pl1 s1 g1 pg1 lg1 hs hl
    rw [popBack_nil] at hs
    exact absurd hs (by simp)
  · rfl

theorem vosePairLoop_large_nil (small : List (Nat × F)) (table : List (AliasEntry F)) :
    vosePairLoop small [] table = (small, [], table) := by
  rw [vosePairLoop.eq_def]
  split
  · rename_i l1 pl1 s1 g1 pg1 lg1 hs hl
    rw [popBack_nil] at hl
    exact absurd hl (by simp)
  · rfl

theorem vosePairCount_step (s₀ l₀ : List (Nat × F)) (l g : Nat) (pl pg : F) :
    vosePairCount (s₀ ++ [(l, pl)]) (l₀ ++ [(g, pg)]) =
      (if (pg + pl) - 1 < 1 then
        vosePairCount (s₀ ++ [(g, (pg + pl) - 1)]) l₀
      else
        vosePairCount s₀ (l₀ ++ [(g, (pg + pl) - 1)])) + 1 := by
  rw [vosePairCount.eq_def]
  split
  · rename_i l1 pl1 s1 g1 pg1 lg1 hs hl
    rw [popBack_append_singleton] at hs hl
    injection hs with hs1
    injection hl with hl1
    injection hs1 with ha hb
    injection hl1 with hc hd
    injection ha with ha1 ha2
    injection hc with hc1 hc2
    subst ha1; subst ha2; subst hb; subst hc1; subst hc2; subst hd
    rfl
  · rename_i hnone
    exact absurd (hnone l pl s₀ g pg l₀ (popBack_append_singleton _ _)
      (popBack_append_singleton _ _)) (fun h => h)

theorem vosePairCount_small_nil (large : List (Nat × F)) :
    vosePairCount ([] : List (Nat × F)) large = 0 := by
  rw [vosePairCount.eq_def]
  split
  · rename_i l1 pl1 s1 g1 pg1 lg1 hs hl
    rw [popBack_nil] at hs
    exact absurd hs (by simp)
  · rfl

theorem vosePairCount_large_nil (small : List (Nat × F)) :
    vosePairCount small ([] : List (Nat × F)) = 0 := by
  rw [vosePairCount.eq_def]
  split
  · rename_i l1 pl1 s1 g1 pg1 lg1 hs hl
    rw [popBack_nil] at hl
    exact absurd hl (by simp)
  · rfl

end Generic

section Construction

variable {F : Type} [Add F] [Sub F] [Mul F] [Div F] [Zero F] [One F] [NatCast F] [LT F]
variable [DecidableRel ((· < ·) : F → F → Prop)]

/-- `ps.iter().cloned().sum()`: for floats, `Sum` is the left fold of `+`
starting from zero. -/
def psumOf (ps : List F) : F := ps.foldl (· + ·) 0

/-- `pcoeff = pn / psum` where `pn = F::from(ps.len())`. -/
def pcoeffOf (ps : List F) : F := (ps.length : F) / psumOf ps

/-- `ps.into_iter().map(|p| pcoeff * p).enumerate()` as a list of
`(index, scaled probability)` pairs. -/
def scaledOf (ps : List F) : List (Nat × F) :=
  (ps.map (fun p => pcoeffOf ps * p)).enum

/-- The `small` component of `partition(|&(_, p)| p < F::one())`. -/
def smallInit (ps : List F) : List (Nat × F) :=
  (scaledOf ps).filter (fun x => x.2 < 1)

/-- The `large` component of `partition(|&(_, p)| p < F::one())`. -/
def largeInit (ps : List F) : List (Nat × F) :=
  (scaledOf ps).filter (fun x => ¬ x.2 < 1)

/-- The table computed by `from_iter` (lines 93-127): scale, partition,
run the pairing loop, then flush the remaining `large` entries and then the
remaining `small` entries as `Unaliased`. -/
def fromIterAux (ps : List F) : List (AliasEntry F) :=
  let p := (scaledOf ps).partition (fun x => x.2 < 1)
  let res := vosePairLoop p.1 p.2 []
  res.2.2 ++ res.2.1.map (fun x => AliasEntry.Unaliased x.1)
    ++ res.1.map (fun x => AliasEntry.Unaliased x.1)

theorem fromIterAux_eq (ps : List F) :
    fromIterAux ps =
      (vosePairLoop (smallInit ps) (largeInit ps) []).2.2
        ++ (vosePairLoop (smallInit ps) (largeInit ps) []).2.1.map
            (fun x => AliasEntry.Unaliased x.1)
        ++ (vosePairLoop (smallInit ps) (largeInit ps) []).1.map
            (fun x => AliasEntry.Unaliased x.1) := by
  unfold fromIterAux smallInit largeInit
  rw [List.partition_eq_filter_filter]
  have hfil : List.filter (not ∘ fun x => decide (x.2 < 1)) (scaledOf ps)
      = List.filter (fun x => decide (¬ x.2 < 1)) (scaledOf ps) := by
    apply List.filter_congr
    intro x _
    simp
  rw [hfil]

/-- Model of `rand::distributions::range::Range::new(low, high)`, which
asserts `low < high` and panics otherwise. -/
def rangeNewCheck {β : Type} [LT β] [DecidableRel ((· < ·) : β → β → Prop)]
    (low high : β) : Except String Unit :=
  if low < high then Except.ok ()
  else Except.error "assertion failed: Range new called with low >= high"

/-- Full `from_iter`: compute the table, then build the two sampling ranges
`Range::new(0, table.len())` and `Range::new(F::zero(), F::one())` of the
struct literal (lines 129-134); a failed `Range::new` assertion is a panic,
modelled as an error result. -/
def from_iter (ps : List F) : Except String (List (AliasEntry F)) :=
  let table := fromIterAux ps
  (rangeNewCheck 0 table.length).bind fun _ =>
    (rangeNewCheck (0 : F) (1 : F)).bind fun _ =>
      Except.ok table

end Construction

/-- The state of the caller-supplied RNG, viewed as the stream of values
its two sampling primitives will produce: `idxDraws` for
`range.ind_sample` and `floatDraws` for `float.ind_sample`. -/
structure RngState (F : Type) where
  idxDraws : List Nat
  floatDraws : List F
deriving DecidableEq

/-- `pick` (lines 62-75): draw a slot index, look the entry up; an
`Unaliased` entry resolves directly, an `Aliased` entry draws one float `u`
and resolves to `value` when `u < threshold` and to `alias` otherwise.
Returns the picked object together with the remaining RNG stream; `none`
models a panic (exhausted stream or out-of-range index). -/
def pick {α F : Type} [LT F] [DecidableRel ((· < ·) : F → F → Prop)]
    (objs : List α) (table : List (AliasEntry F)) (rng : RngState F) :
    Option (α × RngState F) :=
  match rng.idxDraws with
  | [] => none
  | s :: restIdx =>
    match table[s]? with
    | none => none
    | some (AliasEntry.Unaliased i) =>
        (objs[i]?).map (fun o => (o, ⟨restIdx, rng.floatDraws⟩))
    | some (AliasEntry.Aliased t v a) =>
        match rng.floatDraws with
        | [] => none
        | u :: restF =>
            if u < t then (objs[v]?).map (fun o => (o, ⟨restIdx, restF⟩))
            else (objs[a]?).map (fun o => (o, ⟨restIdx, restF⟩))

/-- The indices stored in one table entry. -/
def entryIndices {F : Type} : AliasEntry F → List Nat
  | AliasEntry.Aliased _ v a => [v, a]
  | AliasEntry.Unaliased i => [i]

/-- IEEE floating point, modelled with exact finite values: `NaN`, the two
infinities, and finite numbers kept as exact rationals.  Zeroes are not
signed; every zero is treated as `+0` (the only zero arising in the
scenarios studied here, since the weights summed are `+0.0` and the
products are of non-negative operands). -/
inductive EFloat where
  | nan
  | inf
  | neginf
  | num (q : ℚ)
deriving DecidableEq

namespace EFloat

def neg : EFloat → EFloat
  | nan => nan
  | inf => neginf
  | neginf => inf
  | num q => num (-q)

def add : EFloat → EFloat → EFloat
  | nan, _ => nan
  | _, nan => nan
  | inf, neginf => nan
  | neginf, inf => nan
  | inf, _ => inf
  | _, inf => inf
  | neginf, _ => neginf
  | _, neginf => neginf
  | num a, num b => num (a + b)

def sub (a b : EFloat) : EFloat := add a (neg b)

def mul : EFloat → EFloat → EFloat
  | nan, _ => nan
  | _, nan => nan
  | inf, inf => inf
  | inf, neginf => neginf
  | neginf, inf => neginf
  | neginf, neginf => inf
  | inf, num q => if 0 < q then inf else if q < 0 then neginf else nan
  | num q, inf => if 0 < q then inf else if q < 0 then neginf else nan
  | neginf, num q => if 0 < q then neginf else if q < 0 then inf else nan
  | num q, neginf => if 0 < q then neginf else if q < 0 then inf else nan
  | num a, num b => num (a * b)

def div : EFloat → EFloat → EFloat
  | nan, _ => nan
  | _, nan => nan
  | inf, inf => nan
  | inf, neginf => nan
  | neginf, inf => nan
  | neginf, neginf => nan
  | inf, num q => if q < 0 then neginf else inf
  | neginf, num q => if q < 0 then inf else neginf
  | num _, inf => num 0
  | num _, neginf => num 0
  | num a, num b =>
      if b = 0 then (if a = 0 then nan else if 0 < a then inf else neginf)
      else num (a / b)

/-- IEEE `<`: `NaN` compares false with everything. -/
def blt : EFloat → EFloat → Bool
  | nan, _ => false
  | _, nan => false
  | neginf, neginf => false
  | neginf, _ => true
  | _, neginf => false
  | inf, _ => false
  | num _, inf => true
  | num a, num b => decide (a < b)

instance : Add EFloat := ⟨add⟩
instance : Sub EFloat := ⟨sub⟩
instance : Mul EFloat := ⟨mul⟩
instance : Div EFloat := ⟨div⟩
instance : Zero EFloat := ⟨num 0⟩
instance : One EFloat := ⟨num 1⟩
instance : NatCast EFloat := ⟨fun n => num n⟩
instance : LT EFloat := ⟨fun a b => blt a b = true⟩

instance : DecidableRel ((· < ·) : EFloat → EFloat → Prop) :=
  fun a b => inferInstanceAs (Decidable (blt a b = true))

end EFloat

/-- The ℚ instance of the table construction: the exact-arithmetic
semantics of `from_iter`'s table computation. -/
def fromIterQ (ws : List ℚ) : List (AliasEntry ℚ) := fromIterAux ws

/-- Probability mass that one entry assigns to item `i` under uniform slot
selection: an `Aliased` entry gives `threshold` to `value` and
`1 - threshold` to `alias`; an `Unaliased` entry gives `1` to its index. -/
def entryMass (i : Nat) : AliasEntry ℚ → ℚ
  | AliasEntry.Aliased t v a => (if v = i then t else 0) + (if a = i then 1 - t else 0)
  | AliasEntry.Unaliased j => if j = i then 1 else 0

/-- Total mass a table assigns to item `i` (in units of `1/N`). -/
def tableMass (table : List (AliasEntry ℚ)) (i : Nat) : ℚ :=
  (table.map (entryMass i)).sum

/-- Mass pending for item `i` on a work stack. -/
def stackMass (stack : List (Nat × ℚ)) (i : Nat) : ℚ :=
  (stack.map (fun x => if x.1 = i then x.2 else 0)).sum

/-- Total mass pending on a work stack. -/
def totalStack (stack : List (Nat × ℚ)) : ℚ :=
  (stack.map Prod.snd).sum

theorem popBack_none_eq {α : Type _} {l : List α} (h : popBack l = none) : l = [] := by
  unfold popBack at h
  cases hr : l.reverse with
  | nil => simpa using congrArg List.reverse hr
  | cons y ys => rw [hr] at h; simp at h

theorem tableMass_append (t₁ t₂ : List (AliasEntry ℚ)) (i : Nat) :
    tableMass (t₁ ++ t₂) i = tableMass t₁ i + tableMass t₂ i := by
  simp [tableMass]

theorem stackMass_append (s₁ s₂ : List (Nat × ℚ)) (i : Nat) :
    stackMass (s₁ ++ s₂) i = stackMass s₁ i + stackMass s₂ i := by
  simp [stackMass]

theorem totalStack_append (s₁ s₂ : List (Nat × ℚ)) :
    totalStack (s₁ ++ s₂) = totalStack s₁ + totalStack s₂ := by
  simp [totalStack]

section LoopLemmas

variable {F : Type} [Add F] [Sub F] [One F] [LT F]
variable [DecidableRel ((· < ·) : F → F → Prop)]

theorem vosePairLoop_length (small large : List (Nat × F)) (table : List (AliasEntry F)) :
    (vosePairLoop small large table).1.length
      + (vosePairLoop small large table).2.1.length
      + (vosePairLoop small large table).2.2.length
      = small.length + large.length + table.length := by
  induction small, large, table using vosePairLoop.induct with
  | case1 small large table l pl small' g pg large' hs hl pgv hc ih =>
    obtain rfl := popBack_some_eq hs
    obtain rfl := popBack_some_eq hl
    simp only [show pgv = (pg + pl) - 1 from rfl] at hc ih
    rw [vosePairLoop_step, if_pos hc]
    simp only [List.length_append, List.length_cons, List.length_nil] at ih ⊢
    omega
  | case2 small large table l pl small' g pg large' hs hl pgv hc ih =>
    obtain rfl := popBack_some_eq hs
    obtain rfl := popBack_some_eq hl
    simp only [show pgv = (pg + pl) - 1 from rfl] at hc ih
    rw [vosePairLoop_step, if_neg hc]
    simp only [List.length_append, List.length_cons, List.length_nil] at ih ⊢
    omega
  | case3 small large table h =>
    cases hps : popBack small with
    | none =>
      obtain rfl := popBack_none_eq hps
      rw [vosePairLoop_small_nil]
    | some x =>
      cases hpl : popBack large with
      | none =>
        obtain rfl := popBack_none_eq hpl
        rw [vosePairLoop_large_nil]
      | some y =>
        exact (h x.1.1 x.1.2 x.2 y.1.1 y.1.2 y.2 (by rw [hps]) (by rw [hpl])).elim

theorem vosePairLoop_ends (small large : List (Nat × F)) (table : List (AliasEntry F)) :
    (vosePairLoop small large table).1 = [] ∨ (vosePairLoop small large table).2.1 = [] := by
  induction small, large, table using vosePairLoop.induct with
  | case1 small large table l pl small' g pg large' hs hl pgv hc ih =>
    obtain rfl := popBack_some_eq hs
    obtain rfl := popBack_some_eq hl
    simp only [show pgv = (pg + pl) - 1 from rfl] at hc ih
    rw [vosePairLoop_step, if_pos hc]
    exact ih
  | case2 small large table l pl small' g pg large' hs hl pgv hc ih =>
    obtain rfl := popBack_some_eq hs
    obtain rfl := popBack_some_eq hl
    simp only [show pgv = (pg + pl) - 1 from rfl] at hc ih
    rw [vosePairLoop_step, if_neg hc]
    exact ih
  | case3 small large table h =>
    cases hps : popBack small with
    | none =>
      obtain rfl := popBack_none_eq hps
      rw [vosePairLoop_small_nil]
      exact Or.inl rfl
    | some x =>
      cases hpl : popBack large with
      | none =>
        obtain rfl := popBack_none_eq hpl
        rw [vosePairLoop_large_nil]
        exact Or.inr rfl
      | some y =>
        exact (h x.1.1 x.1.2 x.2 y.1.1 y.1.2 y.2 (by rw [hps]) (by rw [hpl])).elim

end LoopLemmas

theorem fst_lt_of_mem_enumFrom {α : Type _} {x : Nat × α} {n : Nat} {l : List α}
    (h : x ∈ List.enumFrom n l) : x.1 < n + l.length := by
  induction l generalizing n with
  | nil => simp at h
  | cons y ys ih =>
    rw [List.enumFrom_cons] at h
    rcases List.mem_cons.mp h with h1 | h1
    · subst h1
      simp
    · have := ih h1
      simp only [List.length_cons]
      omega

theorem length_filter_add_length_filter_not {α : Type _} (l : List α)
    (p : α → Prop) [DecidablePred p] :
    (l.filter (fun x => p x)).length + (l.filter (fun x => ¬ p x)).length
      = l.length := by
  induction l with
  | nil => simp
  | cons y ys ih =>
    by_cases hy : p y
    · rw [List.filter_cons_of_pos (by simpa using hy),
        List.filter_cons_of_neg (by simpa using hy)]
      simp only [List.length_cons]
      omega
    · rw [List.filter_cons_of_neg (by simpa using hy),
        List.filter_cons_of_pos (by simpa using hy)]
      simp only [List.length_cons]
      omega

section ShapeLemmas

variable {F : Type} [Add F] [Sub F] [One F] [LT F]
variable [DecidableRel ((· < ·) : F → F → Prop)]

theorem vosePairLoop_indices (N : Nat) (small large : List (Nat × F))
    (table : List (AliasEntry F))
    (hsm : ∀ x ∈ small, x.1 < N) (hlg : ∀ x ∈ large, x.1 < N)
    (htb : ∀ e ∈ table, ∀ j ∈ entryIndices e, j < N) :
    (∀ x ∈ (vosePairLoop small large table).1, x.1 < N)
    ∧ (∀ x ∈ (vosePairLoop small large table).2.1, x.1 < N)
    ∧ (∀ e ∈ (vosePairLoop small large table).2.2, ∀ j ∈ entryIndices e, j < N) := by
  induction small, large, table using vosePairLoop.induct with
  | case1 small large table l pl small' g pg large' hs hl pgv hc ih =>
    obtain rfl := popBack_some_eq hs
    obtain rfl := popBack_some_eq hl
    simp only [show pgv = (pg + pl) - 1 from rfl] at hc ih
    rw [vosePairLoop_step, if_pos hc]
    apply ih
    · intro x hx
      rcases List.mem_append.mp hx with h1 | h1
      · exact hsm x (List.mem_append.mpr (Or.inl h1))
      · simp at h1
        subst h1
        exact hlg (g, pg) (by simp)
    · intro x hx
      exact hlg x (List.mem_append.mpr (Or.inl hx))
    · intro e he
      rcases List.mem_append.mp he with h1 | h1
      · exact htb e h1
      · simp at h1
        subst h1
        have hlN : l < N := hsm (l, pl) (by simp)
        have hgN : g < N := hlg (g, pg) (by simp)
        intro j hj
        simp [entryIndices] at hj
        rcases hj with rfl | rfl
        · exact hlN
        · exact hgN
  | case2 small large table l pl small' g pg large' hs hl pgv hc ih =>
    obtain rfl := popBack_some_eq hs
    obtain rfl := popBack_some_eq hl
    simp only [show pgv = (pg + pl) - 1 from rfl] at hc ih
    rw [vosePairLoop_step, if_neg hc]
    apply ih
    · intro x hx
      exact hsm x (List.mem_append.mpr (Or.inl hx))
    · intro x hx
      rcases List.mem_append.mp hx with h1 | h1
      · exact hlg x (List.mem_append.mpr (Or.inl h1))
      · simp at h1
        subst h1
        exact hlg (g, pg) (by simp)
    · intro e he
      rcases List.mem_append.mp he with h1 | h1
      · exact htb e h1
      · simp at h1
        subst h1
        have hlN : l < N := hsm (l, pl) (by simp)
        have hgN : g < N := hlg (g, pg) (by simp)
        intro j hj
        simp [entryIndices] at hj
        rcases hj with rfl | rfl
        · exact hlN
        · exact hgN
  | case3 small large table h =>
    cases hps : popBack small with
    | none =>
      obtain rfl := popBack_none_eq hps
      rw [vosePairLoop_small_nil]
      exact ⟨by simp, hlg, htb⟩
    | some x =>
      cases hpl : popBack large with
      | none =>
        obtain rfl := popBack_none_eq hpl
        rw [vosePairLoop_large_nil]
        exact ⟨hsm, by simp, htb⟩
      | some y =>
        exact (h x.1.1 x.1.2 x.2 y.1.1 y.1.2 y.2 (by rw [hps]) (by rw [hpl])).elim

theorem vosePairCount_spec (small large : List (Nat × F)) (table : List (AliasEntry F)) :
    vosePairCount small large
      + (vosePairLoop small large table).1.length
      + (vosePairLoop small large table).2.1.length
      = small.length + large.length := by
  induction small, large using vosePairCount.induct generalizing table with
  | case1 small large l pl small' g pg large' hs hl pgv ih1 ih2 =>
    obtain rfl := popBack_some_eq hs
    obtain rfl := popBack_some_eq hl
    simp only [show pgv = (pg + pl) - 1 from rfl] at ih1 ih2
    rw [vosePairCount_step, vosePairLoop_step]
    by_cases hc : (pg + pl) - 1 < 1
    · rw [if_pos hc, if_pos hc]
      have := ih1 (table ++ [AliasEntry.Aliased pl l g])
      simp only [List.length_append, List.length_cons, List.length_nil] at this ⊢
      omega
    · rw [if_neg hc, if_neg hc]
      have := ih2 (table ++ [AliasEntry.Aliased pl l g])
      simp only [List.length_append, List.length_cons, List.length_nil] at this ⊢
      omega
  | case2 small large h =>
    cases hps : popBack small with
    | none =>
      obtain rfl := popBack_none_eq hps
      rw [vosePairCount_small_nil, vosePairLoop_small_nil]
      simp
    | some x =>
      cases hpl : popBack large with
      | none =>
        obtain rfl := popBack_none_eq hpl
        rw [vosePairCount_large_nil, vosePairLoop_large_nil]
        simp
      | some y =>
        exact (h x.1.1 x.1.2 x.2 y.1.1 y.1.2 y.2 (by rw [hps]) (by rw [hpl])).elim

end ShapeLemmas

theorem scaledOf_length {F : Type} [Add F] [Sub F] [Mul F] [Div F] [Zero F] [One F]
    [NatCast F] [LT F] [DecidableRel ((· < ·) : F → F → Prop)] (ps : List F) :
    (scaledOf ps).length = ps.length := by
  simp [scaledOf]

theorem smallInit_length_add_largeInit_length {F : Type} [Add F] [Sub F] [Mul F]
    [Div F] [Zero F] [One F] [NatCast F] [LT F]
    [DecidableRel ((· < ·) : F → F → Prop)] (ps : List F) :
    (smallInit ps).length + (largeInit ps).length = ps.length := by
  unfold smallInit largeInit
  rw [length_filter_add_length_filter_not (scaledOf ps) (fun x => x.2 < 1)]
  exact scaledOf_length ps

theorem mem_scaledOf_fst_lt {F : Type} [Add F] [Sub F] [Mul F] [Div F] [Zero F]
    [One F] [NatCast F] [LT F] [DecidableRel ((· < ·) : F → F → Prop)]
    {ps : List F} {x : Nat × F} (h : x ∈ scaledOf ps) : x.1 < ps.length := by
  unfold scaledOf List.enum at h
  have := fst_lt_of_mem_enumFrom h
  simpa using this

/-- C4: while both partitions are non-empty, one iteration of the pairing
loop pops the last element of `small` and the last element of `large`,
emits `Aliased (threshold = p_small) (value = small index) (alias = large
index)`, computes the leftover mass as `(p_large + p_small) - 1` in that
association order, and pushes `(large index, leftover)` back onto `small`
when the leftover is `< 1` and onto `large` otherwise. -/
theorem vose_c4_loop_step (s₀ l₀ : List (Nat × ℚ)) (l g : Nat) (pl pg : ℚ)
    (table : List (AliasEntry ℚ)) :
    vosePairLoop (s₀ ++ [(l, pl)]) (l₀ ++ [(g, pg)]) table =
      if (pg + pl) - 1 < 1 then
        vosePairLoop (s₀ ++ [(g, (pg + pl) - 1)]) l₀
          (table ++ [AliasEntry.Aliased pl l g])
      else
        vosePairLoop s₀ (l₀ ++ [(g, (pg + pl) - 1)])
          (table ++ [AliasEntry.Aliased pl l g]) :=
  vosePairLoop_step s₀ l₀ l g pl pg table

/-- C6: after the pairing loop ends, the table is the loop's emitted
entries followed by the remaining `large` elements flushed as `Unaliased`
of their index, followed by the remaining `small` elements flushed the
same way; the flush maps only the stored index, so the leftover
probability values are never re-examined. -/
theorem vose_c6_flush (ws : List ℚ) :
    fromIterQ ws =
      (vosePairLoop (smallInit ws) (largeInit ws) []).2.2
        ++ ((vosePairLoop (smallInit ws) (largeInit ws) []).2.1.map Prod.fst).map
            AliasEntry.Unaliased
        ++ ((vosePairLoop (smallInit ws) (largeInit ws) []).1.map Prod.fst).map
            AliasEntry.Unaliased := by
  rw [fromIterQ, fromIterAux_eq]
  simp [List.map_map, Function.comp_def]

theorem fromIterQ_eval_pair :
    fromIterQ [1, 3] = [AliasEntry.Aliased (1/2) 0 1, AliasEntry.Unaliased 1] := by
  rw [fromIterQ, fromIterAux_eq]
  have hs : smallInit [(1 : ℚ), 3] = [(0, 1/2)] := by
    norm_num [smallInit, scaledOf, pcoeffOf, psumOf, List.enum, List.enumFrom,
      List.filter]
  have hl : largeInit [(1 : ℚ), 3] = [(1, 3/2)] := by
    norm_num [largeInit, scaledOf, pcoeffOf, psumOf, List.enum, List.enumFrom,
      List.filter]
  rw [hs, hl]
  have h1 : ([(0, (1 : ℚ)/2)] : List (Nat × ℚ)) = [] ++ [(0, 1/2)] := rfl
  have h2 : ([(1, (3 : ℚ)/2)] : List (Nat × ℚ)) = [] ++ [(1, 3/2)] := rfl
  rw [h1, h2, vosePairLoop_step]
  norm_num
  rw [vosePairLoop_small_nil]
  simp

/-- C7: building the table from weights `[1, 3]` produces exactly
`[Aliased (1/2) 0 1, Unaliased 1]`: one aliased entry pairing item 0
(threshold `1/2`) with item 1, then the leftover large mass
`(3/2 + 1/2) - 1 = 1` flushed as `Unaliased 1`. -/
theorem vose_c7_two_item :
    fromIterQ [1, 3] = [AliasEntry.Aliased (1/2) 0 1, AliasEntry.Unaliased 1] :=
  fromIterQ_eval_pair

/-- C2: for weights that are non-negative with positive total, the table
has exactly as many entries as there are input items, and every index
stored in any entry (the `Unaliased` index as well as the `value` and
`alias` of every `Aliased` entry) is smaller than the item count. -/
theorem vose_c2_table_shape (ws : List ℚ) (hw : ∀ w ∈ ws, 0 ≤ w)
    (hsum : 0 < ws.sum) :
    (fromIterQ ws).length = ws.length
    ∧ ∀ e ∈ fromIterQ ws, ∀ j ∈ entryIndices e, j < ws.length := by
  constructor
  · rw [fromIterQ, fromIterAux_eq]
    have hlen := vosePairLoop_length (smallInit ws) (largeInit ws)
      ([] : List (AliasEntry ℚ))
    have hins := smallInit_length_add_largeInit_length ws
    simp only [List.length_append, List.length_map, List.length_nil] at hlen ⊢
    omega
  · rw [fromIterQ, fromIterAux_eq]
    have hidx := vosePairLoop_indices ws.length (smallInit ws) (largeInit ws) []
      (fun x hx => mem_scaledOf_fst_lt (List.mem_of_mem_filter hx))
      (fun x hx => mem_scaledOf_fst_lt (List.mem_of_mem_filter hx))
      (by simp)
    intro e he
    rcases List.mem_append.mp he with he1 | he1
    · rcases List.mem_append.mp he1 with he2 | he2
      · exact hidx.2.2 e he2
      · rcases List.mem_map.mp he2 with ⟨x, hx, rfl⟩
        intro j hj
        simp [entryIndices] at hj
        subst hj
        exact hidx.2.1 x hx
    · rcases List.mem_map.mp he1 with ⟨x, hx, rfl⟩
      intro j hj
      simp [entryIndices] at hj
      subst hj
      exact hidx.1 x hx

/-- Witness for C2 at the concrete input `[1, 3]`. -/
theorem vose_c2_witness :
    (∀ w ∈ [(1 : ℚ), 3], 0 ≤ w) ∧ (0 : ℚ) < List.sum [(1 : ℚ), 3]
    ∧ ((fromIterQ [1, 3]).length = ([(1 : ℚ), 3]).length
        ∧ ∀ e ∈ fromIterQ [1, 3], ∀ j ∈ entryIndices e, j < ([(1 : ℚ), 3]).length) :=
  ⟨by norm_num, by norm_num,
    vose_c2_table_shape [1, 3] (by norm_num) (by norm_num)⟩

/-- C9: the pairing loop terminates after at most `N` iterations: the
number of iterations plus the combined size of the two remaining
partitions always equals the combined initial size (so every iteration
removes net one element), and on the partitions built from `ws` the
iteration count is at most `ws.length`. -/
theorem vose_c9_termination (ws : List ℚ) :
    (∀ (small large : List (Nat × ℚ)) (table : List (AliasEntry ℚ)),
        vosePairCount small large
          + (vosePairLoop small large table).1.length
          + (vosePairLoop small large table).2.1.length
          = small.length + large.length)
    ∧ vosePairCount (smallInit ws) (largeInit ws) ≤ ws.length := by
  refine ⟨fun small large table => vosePairCount_spec small large table, ?_⟩
  have h := vosePairCount_spec (smallInit ws) (largeInit ws)
    ([] : List (AliasEntry ℚ))
  have h2 := smallInit_length_add_largeInit_length (F := ℚ) ws
  omega

/-- C3: `pick` first draws one slot index; if the slot holds
`Unaliased i` it resolves to `objs[i]` without consuming a float draw
(exactly one RNG draw), and if the slot holds `Aliased t v a` it consumes
exactly one float draw `u` and resolves to `objs[v]` when `u < t` and to
`objs[a]` otherwise (two RNG draws in total, the maximum). -/
theorem vose_c3_pick_spec {α : Type} (objs : List α) (table : List (AliasEntry ℚ))
    (s : Nat) (restIdx : List Nat) (floats : List ℚ) :
    (∀ i, table[s]? = some (AliasEntry.Unaliased i) →
        pick objs table ⟨s :: restIdx, floats⟩ =
          (objs[i]?).map (fun o => (o, (⟨restIdx, floats⟩ : RngState ℚ))))
    ∧ (∀ t v a u restF, table[s]? = some (AliasEntry.Aliased t v a) →
        floats = u :: restF →
        pick objs table ⟨s :: restIdx, floats⟩ =
          (objs[if u < t then v else a]?).map
            (fun o => (o, (⟨restIdx, restF⟩ : RngState ℚ)))) := by
  constructor
  · intro i hi
    simp [pick, hi]
  · intro t v a u restF ht hf
    subst hf
    by_cases hu : u < t <;> simp [pick, ht, hu]

/-- Witness for C3 at concrete inputs. -/
theorem vose_c3_witness :
    pick [10, 20] [AliasEntry.Unaliased 1] (⟨[0], []⟩ : RngState ℚ)
        = some (20, ⟨[], []⟩)
    ∧ pick [10, 20] [AliasEntry.Aliased (1/2) 0 1] (⟨[0], [1/4]⟩ : RngState ℚ)
        = some (10, ⟨[], []⟩) := by
  constructor
  · have h := (vose_c3_pick_spec [10, 20] [AliasEntry.Unaliased 1] 0 [] []).1 1
      (by rfl)
    simpa using h
  · have h := (vose_c3_pick_spec [10, 20] [AliasEntry.Aliased (1/2) 0 1] 0 []
      [1/4]).2 (1/2) 0 1 (1/4) [] (by rfl) rfl
    norm_num at h
    simpa using h

theorem EFloat.blt_nan_left (b : EFloat) : EFloat.blt EFloat.nan b = false := by
  cases b <;> rfl

theorem EFloat.not_nan_lt (b : EFloat) : ¬ EFloat.nan < b := by
  intro h
  have hb : EFloat.blt EFloat.nan b = true := h
  rw [EFloat.blt_nan_left] at hb
  exact Bool.noConfusion hb

theorem foldl_add_num_replicate_zero (n : Nat) (q : ℚ) :
    List.foldl (· + ·) (EFloat.num q) (List.replicate n (EFloat.num 0))
      = EFloat.num q := by
  induction n generalizing q with
  | zero => rfl
  | succ k ih =>
    rw [List.replicate_succ, List.foldl_cons]
    have hq : EFloat.num q + EFloat.num 0 = EFloat.num q := by
      change EFloat.add (EFloat.num q) (EFloat.num 0) = EFloat.num q
      simp [EFloat.add]
    rw [hq, ih]

theorem psumOf_replicate_zero (n : Nat) :
    psumOf (List.replicate n (EFloat.num 0)) = EFloat.num 0 := by
  unfold psumOf
  exact foldl_add_num_replicate_zero n 0

theorem pcoeffOf_replicate_zero {n : Nat} (hn : 0 < n) :
    pcoeffOf (List.replicate n (EFloat.num 0)) = EFloat.inf := by
  unfold pcoeffOf
  rw [psumOf_replicate_zero, List.length_replicate]
  change EFloat.div (EFloat.num (n : ℚ)) (EFloat.num 0) = EFloat.inf
  have h1 : ((n : ℚ)) ≠ 0 := by
    exact_mod_cast Nat.pos_iff_ne_zero.mp hn
  have h2 : (0 : ℚ) < (n : ℚ) := by exact_mod_cast hn
  simp [EFloat.div, h1, h2]

theorem fromIterAux_replicate_zero {n : Nat} (hn : 0 < n) :
    fromIterAux (List.replicate n (EFloat.num 0))
      = (List.range n).map AliasEntry.Unaliased := by
  have hscaled : scaledOf (List.replicate n (EFloat.num 0))
      = (List.replicate n EFloat.nan).enum := by
    unfold scaledOf
    rw [List.map_replicate, pcoeffOf_replicate_zero hn]
    have hmul : EFloat.inf * EFloat.num 0 = EFloat.nan := by
      change EFloat.mul EFloat.inf (EFloat.num 0) = EFloat.nan
      simp [EFloat.mul]
    rw [hmul]
  have hsnd : ∀ x ∈ (List.replicate n EFloat.nan).enum, x.2 = EFloat.nan := by
    intro x hx
    have hx2 : x.2 ∈ List.replicate n EFloat.nan := by
      rw [← List.enum_map_snd (List.replicate n EFloat.nan)]
      exact List.mem_map_of_mem Prod.snd hx
    exact List.eq_of_mem_replicate hx2
  have hsmall : smallInit (List.replicate n (EFloat.num 0)) = [] := by
    unfold smallInit
    rw [hscaled]
    apply List.filter_eq_nil_iff.mpr
    intro x hx
    rw [hsnd x hx]
    simpa using EFloat.not_nan_lt 1
  have hlarge : largeInit (List.replicate n (EFloat.num 0))
      = (List.replicate n EFloat.nan).enum := by
    unfold largeInit
    rw [hscaled]
    apply List.filter_eq_self.mpr
    intro x hx
    rw [hsnd x hx]
    simpa using EFloat.not_nan_lt 1
  rw [fromIterAux_eq, hsmall, hlarge, vosePairLoop_small_nil]
  have hmapfst : ((List.replicate n EFloat.nan).enum.map
      (fun x => AliasEntry.Unaliased x.1) : List (AliasEntry EFloat))
      = (List.range n).map AliasEntry.Unaliased := by
    have : (fun x : Nat × EFloat => AliasEntry.Unaliased (F := EFloat) x.1)
        = AliasEntry.Unaliased (F := EFloat) ∘ Prod.fst := rfl
    rw [this, ← List.map_map, List.enum_map_fst, List.length_replicate]
  simpa using hmapfst

theorem from_iter_replicate_zero {n : Nat} (hn : 0 < n) :
    from_iter (List.replicate n (EFloat.num 0))
      = Except.ok ((List.range n).map AliasEntry.Unaliased) := by
  have hlen : 0 < ((List.range n).map (AliasEntry.Unaliased (F := EFloat))).length := by
    simpa using hn
  have h01 : (0 : EFloat) < 1 := by decide
  unfold from_iter
  rw [fromIterAux_replicate_zero hn]
  simp [rangeNewCheck, hn, hlen, h01]
  rfl

theorem from_iter_nil_error :
    from_iter ([] : List EFloat)
      = Except.error "assertion failed: Range new called with low >= high" := by
  have h : fromIterAux ([] : List EFloat) = [] := by
    rw [fromIterAux_eq]
    rw [show smallInit ([] : List EFloat) = [] from rfl,
        show largeInit ([] : List EFloat) = [] from rfl,
        vosePairLoop_small_nil]
    rfl
  unfold from_iter
  rw [h]
  rfl

/-- C5 counterexample: `[0.0]` has total weight zero, yet `from_iter`
signals nothing and returns a table (`[Unaliased 0]`), contrary to the
claim that every zero-total input is rejected loudly. -/
theorem vose_c5_counterexample :
    from_iter [EFloat.num 0] = Except.ok [AliasEntry.Unaliased 0] := by
  have h := from_iter_replicate_zero (n := 1) (by norm_num)
  simpa using h

/-- C5 (amended): only the empty input fails loudly, and only because
`Range::new(0, 0)` asserts `low < high`; a non-empty input with total
weight zero is not rejected: the division by zero produces an infinite
scale, every scaled probability is `NaN`, and `from_iter` silently returns
a table of `N` entries `Unaliased 0, ..., Unaliased (N-1)`. -/
theorem vose_c5_amended :
    from_iter ([] : List EFloat)
        = Except.error "assertion failed: Range new called with low >= high"
    ∧ ∀ n : Nat, 0 < n →
        from_iter (List.replicate n (EFloat.num 0))
          = Except.ok ((List.range n).map AliasEntry.Unaliased) :=
  ⟨from_iter_nil_error, fun _ hn => from_iter_replicate_zero hn⟩

/-- Witness for C5 (amended) at `n = 2`. -/
theorem vose_c5_witness :
    0 < 2 ∧ from_iter (List.replicate 2 (EFloat.num 0))
      = Except.ok ((List.range 2).map AliasEntry.Unaliased) :=
  ⟨by norm_num, vose_c5_amended.2 2 (by norm_num)⟩

/-- C10: for a non-empty all-zero weight input, `from_iter` signals no
error: the scale `N/0` is `+∞`, each scaled probability `0 * ∞` is `NaN`,
every index lands in `large` (`NaN < 1` is false), the pairing loop never
runs, and the table is `Unaliased 0, ..., Unaliased (N-1)` in index order —
so `pick` resolves slot `s` to item `s` and samples the items uniformly. -/
theorem vose_c10_zero_weights (n : Nat) (hn : 0 < n) :
    from_iter (List.replicate n (EFloat.num 0))
      = Except.ok ((List.range n).map AliasEntry.Unaliased)
    ∧ ∀ (objs : List Nat) (s : Nat) (restIdx : List Nat) (floats : List EFloat),
        s < n →
        pick objs ((List.range n).map AliasEntry.Unaliased)
            (⟨s :: restIdx, floats⟩ : RngState EFloat)
          = (objs[s]?).map (fun o => (o, (⟨restIdx, floats⟩ : RngState EFloat))) := by
  refine ⟨from_iter_replicate_zero hn, ?_⟩
  intro objs s restIdx floats hs
  have htab : ((List.range n).map (AliasEntry.Unaliased (F := EFloat)))[s]?
      = some (AliasEntry.Unaliased s) := by
    rw [List.getElem?_map, List.getElem?_range hs]
    rfl
  simp [pick, htab]

/-- Witness for C10 at `n = 3`, slot `1`. -/
theorem vose_c10_witness :
    0 < 3
    ∧ from_iter (List.replicate 3 (EFloat.num 0))
        = Except.ok ((List.range 3).map AliasEntry.Unaliased)
    ∧ pick [7, 8, 9] ((List.range 3).map AliasEntry.Unaliased)
        (⟨[1], []⟩ : RngState EFloat) = some (8, ⟨[], []⟩) := by
  refine ⟨by norm_num, (vose_c10_zero_weights 3 (by norm_num)).1, ?_⟩
  have h := (vose_c10_zero_weights 3 (by norm_num)).2 [7, 8, 9] 1 [] [] (by norm_num)
  simpa using h

theorem tableMass_nil (i : Nat) : tableMass [] i = 0 := rfl

theorem stackMass_nil (i : Nat) : stackMass [] i = 0 := rfl

theorem totalStack_nil : totalStack [] = 0 := rfl

theorem tableMass_singleton (e : AliasEntry ℚ) (i : Nat) :
    tableMass [e] i = entryMass i e := by
  simp [tableMass]

theorem stackMass_singleton (x : Nat × ℚ) (i : Nat) :
    stackMass [x] i = if x.1 = i then x.2 else 0 := by
  simp [stackMass]

theorem totalStack_singleton (x : Nat × ℚ) : totalStack [x] = x.2 := by
  simp [totalStack]

theorem stackMass_cons (x : Nat × ℚ) (L : List (Nat × ℚ)) (i : Nat) :
    stackMass (x :: L) i = (if x.1 = i then x.2 else 0) + stackMass L i := by
  simp [stackMass]

theorem totalStack_cons (x : Nat × ℚ) (L : List (Nat × ℚ)) :
    totalStack (x :: L) = x.2 + totalStack L := by
  simp [totalStack]

theorem sum_map_filter_add {α : Type _} (l : List α) (p : α → Prop) [DecidablePred p]
    (f : α → ℚ) :
    ((l.filter (fun x => p x)).map f).sum + ((l.filter (fun x => ¬ p x)).map f).sum
      = (l.map f).sum := by
  induction l with
  | nil => simp
  | cons y ys ih =>
    by_cases hy : p y
    · rw [List.filter_cons_of_pos (by simpa using hy),
        List.filter_cons_of_neg (by simpa using hy)]
      simp only [List.map_cons, List.sum_cons]
      linarith
    · rw [List.filter_cons_of_neg (by simpa using hy),
        List.filter_cons_of_pos (by simpa using hy)]
      simp only [List.map_cons, List.sum_cons]
      linarith

theorem stackMass_filter_add (l : List (Nat × ℚ)) (p : Nat × ℚ → Prop)
    [DecidablePred p] (i : Nat) :
    stackMass (l.filter (fun x => p x)) i + stackMass (l.filter (fun x => ¬ p x)) i
      = stackMass l i :=
  sum_map_filter_add l p _

theorem totalStack_filter_add (l : List (Nat × ℚ)) (p : Nat × ℚ → Prop)
    [DecidablePred p] :
    totalStack (l.filter (fun x => p x)) + totalStack (l.filter (fun x => ¬ p x))
      = totalStack l :=
  sum_map_filter_add l p _

theorem stackMass_enumFrom_of_lt (xs : List ℚ) {n i : Nat} (h : i < n) :
    stackMass (List.enumFrom n xs) i = 0 := by
  induction xs generalizing n with
  | nil => rfl
  | cons y ys ih =>
    rw [List.enumFrom_cons, stackMass_cons, if_neg (by simp; omega), ih (by omega)]
    ring

theorem stackMass_enumFrom (xs : List ℚ) (n i : Nat) (h1 : n ≤ i) :
    stackMass (List.enumFrom n xs) i = xs.getD (i - n) 0 := by
  induction xs generalizing n with
  | nil => simp [stackMass]
  | cons y ys ih =>
    rw [List.enumFrom_cons, stackMass_cons]
    by_cases hn : n = i
    · subst hn
      rw [if_pos rfl, stackMass_enumFrom_of_lt ys (by omega)]
      simp
    · rw [if_neg (by simp [hn]), ih (n + 1) (by omega)]
      have hin : i - n = (i - (n + 1)) + 1 := by omega
      rw [hin, List.getD_cons_succ]
      ring

theorem totalStack_enum (L : List ℚ) : totalStack L.enum = L.sum := by
  unfold totalStack
  rw [List.enum_map_snd]

theorem psumOf_eq_sum (ps : List ℚ) : psumOf ps = ps.sum := by
  unfold psumOf
  rw [List.sum_eq_foldl]

theorem pcoeffOf_eq (ws : List ℚ) : pcoeffOf ws = (ws.length : ℚ) / ws.sum := by
  unfold pcoeffOf
  rw [psumOf_eq_sum]

theorem pcoeffOf_nonneg {ws : List ℚ} (hsum : 0 < ws.sum) : 0 ≤ pcoeffOf ws := by
  rw [pcoeffOf_eq]
  exact div_nonneg (Nat.cast_nonneg _) hsum.le

theorem mem_scaledOf_snd {ws : List ℚ} {x : Nat × ℚ} (h : x ∈ scaledOf ws) :
    ∃ w ∈ ws, x.2 = pcoeffOf ws * w := by
  unfold scaledOf at h
  have h2 : x.2 ∈ ws.map (fun p => pcoeffOf ws * p) := by
    rw [← List.enum_map_snd (ws.map (fun p => pcoeffOf ws * p))]
    exact List.mem_map_of_mem Prod.snd h
  rcases List.mem_map.mp h2 with ⟨w, hw, hwx⟩
  exact ⟨w, hw, hwx.symm⟩

theorem smallInit_inv {ws : List ℚ} (hw : ∀ w ∈ ws, 0 ≤ w) (hsum : 0 < ws.sum) :
    ∀ x ∈ smallInit ws, 0 ≤ x.2 ∧ x.2 < 1 := by
  intro x hx
  have hmem := List.mem_filter.mp hx
  refine ⟨?_, of_decide_eq_true hmem.2⟩
  rcases mem_scaledOf_snd hmem.1 with ⟨w, hwmem, hwx⟩
  rw [hwx]
  exact mul_nonneg (pcoeffOf_nonneg hsum) (hw w hwmem)

theorem largeInit_inv (ws : List ℚ) : ∀ x ∈ largeInit ws, 1 ≤ x.2 := by
  intro x hx
  have hmem := List.mem_filter.mp hx
  exact not_lt.mp (of_decide_eq_true hmem.2)

theorem vosePairLoop_inv (small large : List (Nat × ℚ)) (table : List (AliasEntry ℚ))
    (hsm : ∀ x ∈ small, 0 ≤ x.2 ∧ x.2 < 1) (hlg : ∀ x ∈ large, 1 ≤ x.2) :
    (∀ x ∈ (vosePairLoop small large table).1, 0 ≤ x.2 ∧ x.2 < 1)
    ∧ (∀ x ∈ (vosePairLoop small large table).2.1, 1 ≤ x.2) := by
  induction small, large, table using vosePairLoop.induct with
  | case1 small large table l pl small' g pg large' hs hl pgv hc ih =>
    obtain rfl := popBack_some_eq hs
    obtain rfl := popBack_some_eq hl
    simp only [show pgv = (pg + pl) - 1 from rfl] at hc ih
    rw [vosePairLoop_step, if_pos hc]
    apply ih
    · intro x hx
      rcases List.mem_append.mp hx with h1 | h1
      · exact hsm x (List.mem_append.mpr (Or.inl h1))
      · simp only [List.mem_singleton] at h1
        subst h1
        have hpg : 1 ≤ pg := hlg (g, pg) (by simp)
        have hpl : 0 ≤ pl := (hsm (l, pl) (by simp)).1
        constructor
        · show (0 : ℚ) ≤ (pg + pl) - 1
          linarith
        · show (pg + pl) - 1 < 1
          exact hc
    · intro x hx
      exact hlg x (List.mem_append.mpr (Or.inl hx))
  | case2 small large table l pl small' g pg large' hs hl pgv hc ih =>
    obtain rfl := popBack_some_eq hs
    obtain rfl := popBack_some_eq hl
    simp only [show pgv = (pg + pl) - 1 from rfl] at hc ih
    rw [vosePairLoop_step, if_neg hc]
    apply ih
    · intro x hx
      exact hsm x (List.mem_append.mpr (Or.inl hx))
    · intro x hx
      rcases List.mem_append.mp hx with h1 | h1
      · exact hlg x (List.mem_append.mpr (Or.inl h1))
      · simp only [List.mem_singleton] at h1
        subst h1
        show (1 : ℚ) ≤ (pg + pl) - 1
        exact not_lt.mp hc
  | case3 small large table h =>
    cases hps : popBack small with
    | none =>
      obtain rfl := popBack_none_eq hps
      rw [vosePairLoop_small_nil]
      exact ⟨by simp, hlg⟩
    | some x =>
      cases hpl : popBack large with
      | none =>
        obtain rfl := popBack_none_eq hpl
        rw [vosePairLoop_large_nil]
        exact ⟨hsm, by simp⟩
      | some y =>
        exact (h x.1.1 x.1.2 x.2 y.1.1 y.1.2 y.2 (by rw [hps]) (by rw [hpl])).elim

theorem vosePairLoop_thresholds (small large : List (Nat × ℚ))
    (table : List (AliasEntry ℚ))
    (hsm : ∀ x ∈ small, 0 ≤ x.2 ∧ x.2 < 1) (hlg : ∀ x ∈ large, 1 ≤ x.2)
    (htb : ∀ t v a, AliasEntry.Aliased t v a ∈ table → 0 ≤ t ∧ t < 1) :
    ∀ t v a, AliasEntry.Aliased t v a ∈ (vosePairLoop small large table).2.2 →
      0 ≤ t ∧ t < 1 := by
  induction small, large, table using vosePairLoop.induct with
  | case1 small large table l pl small' g pg large' hs hl pgv hc ih =>
    obtain rfl := popBack_some_eq hs
    obtain rfl := popBack_some_eq hl
    simp only [show pgv = (pg + pl) - 1 from rfl] at hc ih
    rw [vosePairLoop_step, if_pos hc]
    apply ih
    · intro x hx
      rcases List.mem_append.mp hx with h1 | h1
      · exact hsm x (List.mem_append.mpr (Or.inl h1))
      · simp only [List.mem_singleton] at h1
        subst h1
        have hpg : 1 ≤ pg := hlg (g, pg) (by simp)
        have hpl : 0 ≤ pl := (hsm (l, pl) (by simp)).1
        exact ⟨by show (0 : ℚ) ≤ (pg + pl) - 1; linarith,
          by show (pg + pl) - 1 < 1; exact hc⟩
    · intro x hx
      exact hlg x (List.mem_append.mpr (Or.inl hx))
    · intro t v a ht
      rcases List.mem_append.mp ht with h1 | h1
      · exact htb t v a h1
      · simp only [List.mem_singleton] at h1
        injection h1 with e1 e2 e3
        rw [e1]
        exact hsm (l, pl) (by simp)
  | case2 small large table l pl small' g pg large' hs hl pgv hc ih =>
    obtain rfl := popBack_some_eq hs
    obtain rfl := popBack_some_eq hl
    simp only [show pgv = (pg + pl) - 1 from rfl] at hc ih
    rw [vosePairLoop_step, if_neg hc]
    apply ih
    · intro x hx
      exact hsm x (List.mem_append.mpr (Or.inl hx))
    · intro x hx
      rcases List.mem_append.mp hx with h1 | h1
      · exact hlg x (List.mem_append.mpr (Or.inl h1))
      · simp only [List.mem_singleton] at h1
        subst h1
        show (1 : ℚ) ≤ (pg + pl) - 1
        exact not_lt.mp hc
    · intro t v a ht
      rcases List.mem_append.mp ht with h1 | h1
      · exact htb t v a h1
      · simp only [List.mem_singleton] at h1
        injection h1 with e1 e2 e3
        rw [e1]
        exact hsm (l, pl) (by simp)
  | case3 small large table h =>
    cases hps : popBack small with
    | none =>
      obtain rfl := popBack_none_eq hps
      rw [vosePairLoop_small_nil]
      exact htb
    | some x =>
      cases hpl : popBack large with
      | none =>
        obtain rfl := popBack_none_eq hpl
        rw [vosePairLoop_large_nil]
        exact htb
      | some y =>
        exact (h x.1.1 x.1.2 x.2 y.1.1 y.1.2 y.2 (by rw [hps]) (by rw [hpl])).elim

theorem vosePairLoop_mass (small large : List (Nat × ℚ)) (table : List (AliasEntry ℚ))
    (i : Nat) :
    tableMass (vosePairLoop small large table).2.2 i
      + stackMass (vosePairLoop small large table).1 i
      + stackMass (vosePairLoop small large table).2.1 i
      = tableMass table i + stackMass small i + stackMass large i := by
  induction small, large, table using vosePairLoop.induct with
  | case1 small large table l pl small' g pg large' hs hl pgv hc ih =>
    obtain rfl := popBack_some_eq hs
    obtain rfl := popBack_some_eq hl
    simp only [show pgv = (pg + pl) - 1 from rfl] at hc ih
    rw [vosePairLoop_step, if_pos hc, ih]
    simp only [tableMass_append, stackMass_append, tableMass_singleton,
      stackMass_singleton, entryMass]
    by_cases hli : l = i <;> by_cases hgi : g = i <;> simp [hli, hgi] <;> ring
  | case2 small large table l pl small' g pg large' hs hl pgv hc ih =>
    obtain rfl := popBack_some_eq hs
    obtain rfl := popBack_some_eq hl
    simp only [show pgv = (pg + pl) - 1 from rfl] at hc ih
    rw [vosePairLoop_step, if_neg hc, ih]
    simp only [tableMass_append, stackMass_append, tableMass_singleton,
      stackMass_singleton, entryMass]
    by_cases hli : l = i <;> by_cases hgi : g = i <;> simp [hli, hgi] <;> ring
  | case3 small large table h =>
    cases hps : popBack small with
    | none =>
      obtain rfl := popBack_none_eq hps
      rw [vosePairLoop_small_nil]
    | some x =>
      cases hpl : popBack large with
      | none =>
        obtain rfl := popBack_none_eq hpl
        rw [vosePairLoop_large_nil]
      | some y =>
        exact (h x.1.1 x.1.2 x.2 y.1.1 y.1.2 y.2 (by rw [hps]) (by rw [hpl])).elim

theorem vosePairLoop_total (small large : List (Nat × ℚ)) (table : List (AliasEntry ℚ)) :
    totalStack (vosePairLoop small large table).1
      + totalStack (vosePairLoop small large table).2.1
      + ((vosePairLoop small large table).2.2.length : ℚ)
      = totalStack small + totalStack large + (table.length : ℚ) := by
  induction small, large, table using vosePairLoop.induct with
  | case1 small large table l pl small' g pg large' hs hl pgv hc ih =>
    obtain rfl := popBack_some_eq hs
    obtain rfl := popBack_some_eq hl
    simp only [show pgv = (pg + pl) - 1 from rfl] at hc ih
    rw [vosePairLoop_step, if_pos hc, ih]
    simp only [totalStack_append, totalStack_singleton, List.length_append,
      List.length_cons, List.length_nil]
    push_cast
    ring
  | case2 small large table l pl small' g pg large' hs hl pgv hc ih =>
    obtain rfl := popBack_some_eq hs
    obtain rfl := popBack_some_eq hl
    simp only [show pgv = (pg + pl) - 1 from rfl] at hc ih
    rw [vosePairLoop_step, if_neg hc, ih]
    simp only [totalStack_append, totalStack_singleton, List.length_append,
      List.length_cons, List.length_nil]
    push_cast
    ring
  | case3 small large table h =>
    cases hps : popBack small with
    | none =>
      obtain rfl := popBack_none_eq hps
      rw [vosePairLoop_small_nil]
    | some x =>
      cases hpl : popBack large with
      | none =>
        obtain rfl := popBack_none_eq hpl
        rw [vosePairLoop_large_nil]
      | some y =>
        exact (h x.1.1 x.1.2 x.2 y.1.1 y.1.2 y.2 (by rw [hps]) (by rw [hpl])).elim

theorem length_le_totalStack {L : List (Nat × ℚ)} (h : ∀ x ∈ L, 1 ≤ x.2) :
    (L.length : ℚ) ≤ totalStack L := by
  induction L with
  | nil => simp [totalStack_nil]
  | cons y ys ih =>
    rw [totalStack_cons]
    have h1 : 1 ≤ y.2 := h y (by simp)
    have h2 := ih (fun x hx => h x (by simp [hx]))
    simp only [List.length_cons]
    push_cast
    linarith

theorem totalStack_le_of_lt_one {L : List (Nat × ℚ)} (h : ∀ x ∈ L, x.2 < 1) :
    totalStack L ≤ (L.length : ℚ) := by
  induction L with
  | nil => simp [totalStack_nil]
  | cons y ys ih =>
    rw [totalStack_cons]
    have h1 : y.2 < 1 := h y (by simp)
    have h2 := ih (fun x hx => h x (by simp [hx]))
    simp only [List.length_cons]
    push_cast
    linarith

theorem all_eq_one_of_total {L : List (Nat × ℚ)} (h : ∀ x ∈ L, 1 ≤ x.2)
    (htot : totalStack L = (L.length : ℚ)) : ∀ x ∈ L, x.2 = 1 := by
  induction L with
  | nil => simp
  | cons y ys ih =>
    have h1 : 1 ≤ y.2 := h y (by simp)
    have h2 := length_le_totalStack (fun x hx => h x (List.mem_cons_of_mem y hx))
    rw [totalStack_cons] at htot
    simp only [List.length_cons] at htot
    push_cast at htot
    have hy : y.2 = 1 := by linarith
    have hys : totalStack ys = (ys.length : ℚ) := by linarith
    intro x hx
    rcases List.mem_cons.mp hx with rfl | hx2
    · exact hy
    · exact ih (fun z hz => h z (List.mem_cons_of_mem y hz)) hys x hx2

theorem nil_of_total_lt {L : List (Nat × ℚ)} (h : ∀ x ∈ L, x.2 < 1)
    (htot : totalStack L = (L.length : ℚ)) : L = [] := by
  cases L with
  | nil => rfl
  | cons y ys =>
    exfalso
    have h1 : y.2 < 1 := h y (by simp)
    have h2 := totalStack_le_of_lt_one (fun x hx => h x (List.mem_cons_of_mem y hx))
    rw [totalStack_cons] at htot
    simp only [List.length_cons] at htot
    push_cast at htot
    linarith

theorem tableMass_unaliased_map {L : List (Nat × ℚ)} (hone : ∀ x ∈ L, x.2 = 1)
    (i : Nat) :
    tableMass (L.map (fun x => AliasEntry.Unaliased x.1)) i = stackMass L i := by
  induction L with
  | nil => rfl
  | cons y ys ih =>
    rw [List.map_cons]
    have hy : y.2 = 1 := hone y (by simp)
    have hys := ih (fun x hx => hone x (by simp [hx]))
    show tableMass (AliasEntry.Unaliased y.1 :: ys.map (fun x => AliasEntry.Unaliased x.1)) i
      = stackMass (y :: ys) i
    rw [stackMass_cons]
    have hcons : tableMass (AliasEntry.Unaliased y.1 ::
        ys.map (fun x => AliasEntry.Unaliased x.1)) i
        = entryMass i (AliasEntry.Unaliased y.1)
          + tableMass (ys.map (fun x => AliasEntry.Unaliased x.1)) i := by
      simp [tableMass]
    rw [hcons, hys]
    simp only [entryMass, hy]

theorem stackMass_scaledOf {ws : List ℚ} {i : Nat} (hi : i < ws.length) :
    stackMass (scaledOf ws) i = pcoeffOf ws * ws[i] := by
  unfold scaledOf
  rw [show (ws.map (fun p => pcoeffOf ws * p)).enum
      = List.enumFrom 0 (ws.map (fun p => pcoeffOf ws * p)) from rfl]
  rw [stackMass_enumFrom _ 0 i (by omega)]
  rw [List.getD_eq_getElem _ _ (by simpa using hi), List.getElem_map]
  simp

theorem totalStack_scaledOf {ws : List ℚ} (hsum : 0 < ws.sum) :
    totalStack (scaledOf ws) = (ws.length : ℚ) := by
  unfold scaledOf
  rw [totalStack_enum]
  have hmul : ∀ (L : List ℚ) (c : ℚ), (L.map (fun p => c * p)).sum = c * L.sum := by
    intro L c
    induction L with
    | nil => simp
    | cons y ys ih =>
      simp only [List.map_cons, List.sum_cons, ih]
      ring
  rw [hmul, pcoeffOf_eq]
  exact div_mul_cancel₀ _ hsum.ne'

theorem stackMass_init_split (ws : List ℚ) (i : Nat) :
    stackMass (smallInit ws) i + stackMass (largeInit ws) i
      = stackMass (scaledOf ws) i := by
  unfold smallInit largeInit
  exact stackMass_filter_add (scaledOf ws) (fun x => x.2 < 1) i

theorem totalStack_init_split (ws : List ℚ) :
    totalStack (smallInit ws) + totalStack (largeInit ws)
      = totalStack (scaledOf ws) := by
  unfold smallInit largeInit
  exact totalStack_filter_add (scaledOf ws) (fun x => x.2 < 1)


/-- C8: for non-negative weights with positive total, every `Aliased`
entry of the constructed table has a threshold in `[0, 1)`: thresholds are
popped from the `small` partition, whose elements stay non-negative and
below one throughout the loop, including leftovers `(p_g + p_l) - 1`
re-inserted into `small`. -/
theorem vose_c8_threshold (ws : List ℚ) (hw : ∀ w ∈ ws, 0 ≤ w)
    (hsum : 0 < ws.sum) :
    ∀ t v a, AliasEntry.Aliased t v a ∈ fromIterQ ws → 0 ≤ t ∧ t < 1 := by
  rw [fromIterQ, fromIterAux_eq]
  intro t v a ht
  rcases List.mem_append.mp ht with h1 | h1
  · rcases List.mem_append.mp h1 with h2 | h2
    · exact vosePairLoop_thresholds (smallInit ws) (largeInit ws) []
        (smallInit_inv hw hsum) (largeInit_inv ws) (by simp) t v a h2
    · rcases List.mem_map.mp h2 with ⟨x, _, hx⟩
      simp at hx
  · rcases List.mem_map.mp h1 with ⟨x, _, hx⟩
    simp at hx

/-- Witness for C8: the threshold `1/2` of the `Aliased` entry built from
weights `[1, 3]` lies in `[0, 1)`. -/
theorem vose_c8_witness :
    (∀ w ∈ [(1 : ℚ), 3], 0 ≤ w) ∧ (0 : ℚ) < List.sum [(1 : ℚ), 3]
    ∧ (0 ≤ (1/2 : ℚ) ∧ (1/2 : ℚ) < 1) := by
  refine ⟨by norm_num, by norm_num, ?_⟩
  exact vose_c8_threshold [1, 3] (by norm_num) (by norm_num) (1/2) 0 1
    (by rw [fromIterQ_eval_pair]; simp)

/-- C1: in exact arithmetic, for non-negative weights with positive total,
the table assigns item `i` total mass `N * w_i / Σ w` — summing `threshold`
over `Aliased` entries with `value = i`, `1 - threshold` over `Aliased`
entries with `alias = i`, and `1` per `Unaliased i` entry — so under a
uniform slot draw and uniform float draw, `pick` returns item `i` with
probability `w_i / Σ w`. -/
theorem vose_c1_mass_preservation (ws : List ℚ) (hw : ∀ w ∈ ws, 0 ≤ w)
    (hsum : 0 < ws.sum) (i : Nat) (hi : i < ws.length) :
    tableMass (fromIterQ ws) i = (ws.length : ℚ) * ws[i] / ws.sum := by
  have hS := smallInit_inv hw hsum
  have hL := largeInit_inv ws
  have hinv := vosePairLoop_inv (smallInit ws) (largeInit ws) [] hS hL
  have hlen := vosePairLoop_length (smallInit ws) (largeInit ws)
    ([] : List (AliasEntry ℚ))
  have htot := vosePairLoop_total (smallInit ws) (largeInit ws) []
  have hmass := vosePairLoop_mass (smallInit ws) (largeInit ws) [] i
  have hends := vosePairLoop_ends (smallInit ws) (largeInit ws)
    ([] : List (AliasEntry ℚ))
  set R := vosePairLoop (smallInit ws) (largeInit ws) ([] : List (AliasEntry ℚ))
    with hRdef
  have hts : totalStack (smallInit ws) + totalStack (largeInit ws)
      = (ws.length : ℚ) := by
    rw [totalStack_init_split]
    exact totalStack_scaledOf hsum
  have hlens : (smallInit ws).length + (largeInit ws).length = ws.length :=
    smallInit_length_add_largeInit_length ws
  have h0 : R.1.length + R.2.1.length + R.2.2.length = ws.length := by
    simp only [List.length_nil] at hlen
    omega
  have h1 : (R.1.length : ℚ) + (R.2.1.length : ℚ) + (R.2.2.length : ℚ)
      = (ws.length : ℚ) := by
    exact_mod_cast h0
  have h2 : totalStack R.1 + totalStack R.2.1 + (R.2.2.length : ℚ)
      = (ws.length : ℚ) := by
    rw [htot]
    simp [hts]
  have hQ : totalStack R.1 + totalStack R.2.1
      = (R.1.length : ℚ) + (R.2.1.length : ℚ) := by
    linarith
  have hfin : R.1 = [] ∧ ∀ x ∈ R.2.1, x.2 = 1 := by
    rcases hends with he | he
    · refine ⟨he, ?_⟩
      apply all_eq_one_of_total hinv.2
      rw [he] at hQ
      simpa [totalStack_nil] using hQ
    · have hnil : R.1 = [] := by
        apply nil_of_total_lt (fun x hx => (hinv.1 x hx).2)
        rw [he] at hQ
        simpa [totalStack_nil] using hQ
      exact ⟨hnil, by rw [he]; simp⟩
  have hscaled : stackMass (smallInit ws) i + stackMass (largeInit ws) i
      = pcoeffOf ws * ws[i] := by
    rw [stackMass_init_split]
    exact stackMass_scaledOf hi
  have hmass' : tableMass R.2.2 i + stackMass R.2.1 i = pcoeffOf ws * ws[i] := by
    have hz : stackMass R.1 i = 0 := by
      rw [hfin.1, stackMass_nil]
    rw [tableMass_nil] at hmass
    linarith
  rw [fromIterQ, fromIterAux_eq, ← hRdef, tableMass_append, tableMass_append,
    tableMass_unaliased_map hfin.2, hfin.1]
  simp only [List.map_nil, tableMass_nil, add_zero]
  rw [hmass', pcoeffOf_eq]
  ring

/-- Witness for C1 at weights `[1, 3]`, item `0`. -/
theorem vose_c1_witness :
    (∀ w ∈ [(1 : ℚ), 3], 0 ≤ w) ∧ (0 : ℚ) < List.sum [(1 : ℚ), 3]
    ∧ tableMass (fromIterQ [1, 3]) 0
        = (([(1 : ℚ), 3].length : ℚ)) * ([(1 : ℚ), 3])[0] / List.sum [(1 : ℚ), 3] := by
  refine ⟨by norm_num, by norm_num, ?_⟩
  exact vose_c1_mass_preservation [1, 3] (by norm_num) (by norm_num) 0 (by norm_num)
